import Mathlib

/-!
Verification of go-sync: promises over goroutines (`sync.go`).

A shallow embedding of `Execute`, `Promise.Get` and `Wait`.

Goroutines are modelled as threads of a small-step transition system with an
interleaving (sequentially consistent) scheduler.  A schedule is a list of
thread identifiers; scheduling a thread that is blocked (or has exited, or
does not exist yet) leaves the state unchanged.  One transition is one
statement of the Go source.

The channel `done` of a Promise is only ever closed and received from, so its
state is one bit: closed or not.  A call of a work function has one of three
outcomes: it returns a pair `(v, err)`, it never ends, or it ends its goroutine
without returning (a panic or `runtime.Goexit`), in which case the deferred
`close(done)` still runs and the assignment is skipped.  The fields `val` and
`err` are written before the close and read after a receive that the close
enables, so the program has no data race and the interleaving semantics is the
one the Go memory model gives it.
-/

namespace GoSync

/-! ## Data model -/

/-- The part of `context.Context` a work function can observe. -/
structure Context where
  cancelled : Bool
  deriving DecidableEq, Repr

/-- Go `error`: `none` is `nil`, `some msg` is a non-nil error. -/
abbrev Error := Option String

/-- How a call `f(ctx, t)` of a work function ends. -/
inductive Outcome (V : Type) where
  /-- the call returns the pair `r` -/
  | returned (r : V × Error)
  /-- the call never ends: it blocks or loops for ever -/
  | blocked
  /-- the call ends its goroutine without returning, by a panic or by
  `runtime.Goexit`: the rest of the body is skipped and the deferred calls run.
  (After a panic the process ends once the deferred calls have run; the
  schedules that stop there are the executions of such a program.) -/
  | unwound
  deriving DecidableEq, Repr

/-- `Func[T, V]`: `func(context.Context, T) (V, error)`, given by the outcome of
each call. -/
abbrev Func (T V : Type) := Context → T → Outcome V

/-- `Promise[V]`: the fields `val`, `err` and the channel `done`
(`done = true` iff the channel has been closed). -/
structure Promise (V : Type) where
  val : V
  err : Error
  done : Bool
  deriving DecidableEq, Repr

/-- The Promise built by `p := Promise[V]{done: done}` over a fresh channel:
zero value, nil error, open channel. -/
def Promise.fresh (V : Type) [Inhabited V] : Promise V :=
  { val := default, err := none, done := false }

/-- The receive `<-p.done`: it completes only once the channel is closed. -/
def Promise.recvDone {V : Type} (p : Promise V) : Option Unit :=
  if p.done then some () else none

/-- `Promise.Get`: `<-p.done; return p.val, p.err`.  The result is `none` when the
receive blocks; otherwise the returned pair together with the Promise as Get
leaves it. -/
def Promise.Get {V : Type} (p : Promise V) : Option ((V × Error) × Promise V) :=
  match p.recvDone with
  | some _ => some ((p.val, p.err), p)
  | none => none

/-- Successive calls of `Get` on one Promise: `n` calls, results in call order. -/
def Promise.getN {V : Type} : Nat → Promise V → Option (List (V × Error) × Promise V)
  | 0, p => some ([], p)
  | n + 1, p =>
    match p.Get with
    | none => none
    | some (r, q) =>
      match Promise.getN n q with
      | none => none
      | some (rs, q2) => some (r :: rs, q2)

/-- The three states of a Promise named by the specification. -/
inductive PState where
  | pending
  | fulfilled
  | failed
  deriving DecidableEq, Repr

/-- Classifies a Promise: pending while the channel is open, then fulfilled
(nil error) or failed (non-nil error). -/
def Promise.state {V : Type} (p : Promise V) : PState :=
  if p.done then (if p.err.isSome then PState.failed else PState.fulfilled)
  else PState.pending

/-! ## The goroutine launched by Execute -/

/-- Program counter of the goroutine `go func() { defer close(done); p.val, p.err = f(ctx, t) }()`. -/
inductive TaskPc (V : Type) where
  /-- launched, `f` not yet called -/
  | entry
  /-- inside a call of `f` that never ends -/
  | inCall
  /-- after `f` returned `r`; `p.val` not yet assigned -/
  | storeVal (r : V × Error)
  /-- after `p.val` was assigned; `p.err` not yet assigned -/
  | storeErr (r : V × Error)
  /-- body finished or abandoned; the deferred `close(done)` not yet run -/
  | deferred
  /-- goroutine finished -/
  | exited

/-- One call of `Execute`: the captured variables `ctx`, `t`, `f`, the Promise
`p`, the goroutine (`none` before the `go` statement), and two ghost fields:
the log of calls of `f` and the number of `close(done)` executed. -/
structure Cell (T V : Type) where
  ctx : Context
  input : T
  f : Func T V
  p : Promise V
  task : Option (TaskPc V)
  calls : List (Context × T)
  closes : Nat

/-- One statement of the launched goroutine; `none` when it has no statement
to run (not launched, stuck inside `f`, or exited).  When the call of `f`
unwinds, the assignment `p.val, p.err = ...` is skipped and the goroutine goes
straight to its deferred `close(done)`. -/
def Execute.taskStep {T V : Type} (c : Cell T V) : Option (Cell T V) :=
  match c.task with
  | some TaskPc.entry =>
    match c.f c.ctx c.input with
    | Outcome.returned r =>
      some { c with task := some (TaskPc.storeVal r), calls := c.calls ++ [(c.ctx, c.input)] }
    | Outcome.blocked =>
      some { c with task := some TaskPc.inCall, calls := c.calls ++ [(c.ctx, c.input)] }
    | Outcome.unwound =>
      some { c with task := some TaskPc.deferred, calls := c.calls ++ [(c.ctx, c.input)] }
  | some (TaskPc.storeVal r) =>
    some { c with p := { c.p with val := r.1 }, task := some (TaskPc.storeErr r) }
  | some (TaskPc.storeErr r) =>
    some { c with p := { c.p with err := r.2 }, task := some TaskPc.deferred }
  | some TaskPc.deferred =>
    some { c with p := { c.p with done := true }, task := some TaskPc.exited,
                  closes := c.closes + 1 }
  | some TaskPc.inCall => none
  | some TaskPc.exited => none
  | none => none

/-- Statements the goroutine still has to run. -/
def taskRemaining {V : Type} : Option (TaskPc V) → Nat
  | none => 4
  | some TaskPc.entry => 4
  | some (TaskPc.storeVal _) => 3
  | some (TaskPc.storeErr _) => 2
  | some TaskPc.deferred => 1
  | some TaskPc.inCall => 0
  | some TaskPc.exited => 0

/-! ## One caller running `Execute(ctx, t, f).Get()` -/

/-- Program counter of the caller. -/
inductive MainPc (V : Type) where
  /-- in Execute, before `done := make(chan struct{}); p := Promise[V]{done: done}` -/
  | execInit
  /-- in Execute, before the `go` statement -/
  | execGo
  /-- in Execute, before `return &p` -/
  | execRet
  /-- Execute has returned; in Get, before `<-p.done` -/
  | getRecv
  /-- in Get, receive completed, before `return p.val, p.err` -/
  | getRet
  /-- Get has returned `r` -/
  | finished (r : V × Error)

/-- State of the system: the cell of the Execute call and the caller. -/
structure ExecSt (T V : Type) where
  cell : Cell T V
  main : MainPc V

/-- The two threads. -/
inductive Tid where
  | main
  | task
  deriving DecidableEq, Repr

/-- The state in which `Execute(ctx, t, f)` is entered. -/
def ExecSt.init {T V : Type} [Inhabited V] (ctx : Context) (t : T) (f : Func T V) : ExecSt T V :=
  { cell := { ctx := ctx, input := t, f := f, p := Promise.fresh V, task := none,
              calls := [], closes := 0 },
    main := MainPc.execInit }

/-- One statement of the caller of `Execute(ctx, t, f).Get()`: first the three
statements of Execute, then the two of Get; `none` when blocked in `<-p.done`
or finished. -/
def mainStep {T V : Type} [Inhabited V] (s : ExecSt T V) : Option (ExecSt T V) :=
  match s.main with
  | MainPc.execInit =>
    some { cell := { s.cell with p := Promise.fresh V }, main := MainPc.execGo }
  | MainPc.execGo =>
    some { cell := { s.cell with task := some TaskPc.entry }, main := MainPc.execRet }
  | MainPc.execRet => some { s with main := MainPc.getRecv }
  | MainPc.getRecv =>
    match s.cell.p.recvDone with
    | some _ => some { s with main := MainPc.getRet }
    | none => none
  | MainPc.getRet => some { s with main := MainPc.finished (s.cell.p.val, s.cell.p.err) }
  | MainPc.finished _ => none

/-- One transition of the thread `tid`, `none` when it is not enabled. -/
def ExecSt.step {T V : Type} [Inhabited V] (tid : Tid) (s : ExecSt T V) : Option (ExecSt T V) :=
  match tid with
  | Tid.main => mainStep s
  | Tid.task =>
    match Execute.taskStep s.cell with
    | some c => some { s with cell := c }
    | none => none

/-- Runs a schedule; a thread that is not enabled when scheduled does nothing. -/
def ExecSt.run {T V : Type} [Inhabited V] : List Tid → ExecSt T V → ExecSt T V
  | [], s => s
  | tid :: rest, s =>
    match ExecSt.step tid s with
    | some s2 => ExecSt.run rest s2
    | none => ExecSt.run rest s

/-- Execute has returned to its caller. -/
def MainPc.execReturned {V : Type} : MainPc V → Bool
  | MainPc.execInit => false
  | MainPc.execGo => false
  | MainPc.execRet => false
  | _ => true

/-- Statements the caller still has to run. -/
def mainRemaining {V : Type} : MainPc V → Nat
  | MainPc.execInit => 5
  | MainPc.execGo => 4
  | MainPc.execRet => 3
  | MainPc.getRecv => 2
  | MainPc.getRet => 1
  | MainPc.finished _ => 0

/-- Statements left in the whole system: a bound on the length of any execution. -/
def ExecSt.remaining {T V : Type} (s : ExecSt T V) : Nat :=
  mainRemaining s.main + taskRemaining s.cell.task

/-- Example work: squares its input, no error. -/
def square : Func Nat Nat := fun _ n => Outcome.returned (n * n, none)

/-- The cell of a call `Execute(ctx, t, f)` at the moment Execute returns and
before its goroutine has run: fresh Promise, goroutine at its entry. -/
def Cell.launched {T V : Type} [Inhabited V] (ctx : Context) (t : T) (f : Func T V) : Cell T V :=
  { ctx := ctx, input := t, f := f, p := Promise.fresh V, task := some TaskPc.entry,
    calls := [], closes := 0 }

/-! ## Wait -/

/-- Program counter of the caller of `Wait(ws)`. -/
inductive WaitPc where
  /-- before `wg.Add(len(ws))` -/
  | add
  /-- before `done := make(chan struct{})` -/
  | mkDone
  /-- in `for _, w := range ws`, after `i` iterations -/
  | loop (i : Nat)
  /-- after the second `go` statement, at the end of the function body -/
  | fallOff
  /-- Wait has returned (the function has no result) -/
  | returned
  deriving DecidableEq, Repr

/-- Program counter of `go func() { defer close(done); wg.Wait() }()`. -/
inductive WaiterPc where
  /-- before or inside `wg.Wait()` -/
  | waiting
  /-- before the deferred `close(done)` -/
  | deferred
  /-- goroutine finished -/
  | exited
  deriving DecidableEq, Repr

/-- A goroutine `go func(w *Promise[T]) { defer wg.Done() }(w)`: the index in
`ws` of its argument `w`, and whether its deferred `wg.Done()` has run. -/
structure Worker where
  w : Nat
  exited : Bool
  deriving DecidableEq, Repr

/-- State of a call of Wait: the Promises passed to it with their own
goroutines, the caller, the counter of `wg`, the local channel `done`
(`true` iff closed), and the goroutines Wait has launched. -/
structure WaitSt (T V : Type) where
  ws : List (Cell T V)
  pc : WaitPc
  wg : Int
  done : Bool
  workers : List Worker
  waiter : Option WaiterPc

/-- Threads of the system around a call of Wait. -/
inductive WTid where
  /-- the caller of Wait -/
  | caller
  /-- the `k`-th goroutine launched by the loop of Wait -/
  | worker (k : Nat)
  /-- the goroutine running `wg.Wait()` -/
  | waiter
  /-- the goroutine Execute launched for the Promise `ws[i]` -/
  | task (i : Nat)
  deriving DecidableEq, Repr

/-- The state in which `Wait(ws)` is entered (`var wg sync.WaitGroup` is zero). -/
def WaitSt.init {T V : Type} (ws : List (Cell T V)) : WaitSt T V :=
  { ws := ws, pc := WaitPc.add, wg := 0, done := false, workers := [], waiter := none }

/-- One statement of the caller of Wait; `none` once it has returned. -/
def Wait.callerStep {T V : Type} (s : WaitSt T V) : Option (WaitSt T V) :=
  match s.pc with
  | WaitPc.add => some { s with wg := s.wg + (s.ws.length : Int), pc := WaitPc.mkDone }
  | WaitPc.mkDone => some { s with done := false, pc := WaitPc.loop 0 }
  | WaitPc.loop i =>
    if i < s.ws.length then
      some { s with workers := s.workers ++ [{ w := i, exited := false }], pc := WaitPc.loop (i + 1) }
    else
      some { s with waiter := some WaiterPc.waiting, pc := WaitPc.fallOff }
  | WaitPc.fallOff => some { s with pc := WaitPc.returned }
  | WaitPc.returned => none

/-- The only statement of the `k`-th per-Promise goroutine: the deferred `wg.Done()`. -/
def Wait.workerStep {T V : Type} (k : Nat) (s : WaitSt T V) : Option (WaitSt T V) :=
  match s.workers[k]? with
  | some g =>
    if g.exited then none
    else some { s with wg := s.wg - 1, workers := s.workers.set k { g with exited := true } }
  | none => none

/-- One statement of the goroutine `defer close(done); wg.Wait()`: `wg.Wait()`
completes only when the counter is zero. -/
def Wait.waiterStep {T V : Type} (s : WaitSt T V) : Option (WaitSt T V) :=
  match s.waiter with
  | some WaiterPc.waiting =>
    if s.wg = 0 then some { s with waiter := some WaiterPc.deferred } else none
  | some WaiterPc.deferred => some { s with done := true, waiter := some WaiterPc.exited }
  | some WaiterPc.exited => none
  | none => none

/-- One statement of the goroutine of the Promise `ws[i]`. -/
def promiseStep {T V : Type} (i : Nat) (ws : List (Cell T V)) : Option (List (Cell T V)) :=
  match ws[i]? with
  | some c =>
    match Execute.taskStep c with
    | some c2 => some (ws.set i c2)
    | none => none
  | none => none

/-- One transition of the thread `tid`, `none` when it is not enabled. -/
def WaitSt.step {T V : Type} (tid : WTid) (s : WaitSt T V) : Option (WaitSt T V) :=
  match tid with
  | WTid.caller => Wait.callerStep s
  | WTid.worker k => Wait.workerStep k s
  | WTid.waiter => Wait.waiterStep s
  | WTid.task i =>
    match promiseStep i s.ws with
    | some ws2 => some { s with ws := ws2 }
    | none => none

/-- Runs a schedule; a thread that is not enabled when scheduled does nothing. -/
def WaitSt.run {T V : Type} : List WTid → WaitSt T V → WaitSt T V
  | [], s => s
  | tid :: rest, s =>
    match WaitSt.step tid s with
    | some s2 => WaitSt.run rest s2
    | none => WaitSt.run rest s

/-- The Promises and their goroutines running on their own, with no call of
Wait: a schedule is a list of indices into `ws`. -/
def runTasks {T V : Type} : List Nat → List (Cell T V) → List (Cell T V)
  | [], ws => ws
  | i :: rest, ws =>
    match promiseStep i ws with
    | some ws2 => runTasks rest ws2
    | none => runTasks rest ws

/-- The steps of a schedule that belong to the goroutines of the Promises. -/
def taskSteps : List WTid → List Nat
  | [] => []
  | WTid.task i :: rest => i :: taskSteps rest
  | _ :: rest => taskSteps rest

/-- Statements the caller of Wait has run, out of `len(ws) + 4`. -/
def callerDone (n : Nat) : WaitPc → Nat
  | WaitPc.add => 0
  | WaitPc.mkDone => 1
  | WaitPc.loop i => 2 + min i n
  | WaitPc.fallOff => n + 3
  | WaitPc.returned => n + 4

/-- Example work: fails at once with the error "boom". -/
def boom : Func Nat Nat := fun _ _ => Outcome.returned (0, some "boom")

/-- Example work: returns 5 and no error. -/
def five : Func Nat Nat := fun _ _ => Outcome.returned (5, none)

/-- Example work: never ends. -/
def forever : Func Nat Nat := fun _ _ => Outcome.blocked

/-- Example work: ends its goroutine without returning (it panics, or calls
`runtime.Goexit`). -/
def crash : Func Nat Nat := fun _ _ => Outcome.unwound

/-- The two Promises of the "boom" scenario, as Execute returned them. -/
def boomScenario : List (Cell Nat Nat) :=
  [Cell.launched ⟨false⟩ 0 boom, Cell.launched ⟨false⟩ 0 five]

/-- The arguments of one call `Execute(ctx, t, f)`. -/
structure Job (T V : Type) where
  ctx : Context
  input : T
  f : Func T V

/-- The cells of a list of Execute calls that have all returned. -/
def launchAll {T V : Type} [Inhabited V] (jobs : List (Job T V)) : List (Cell T V) :=
  jobs.map (fun j => Cell.launched j.ctx j.input j.f)

/-- Everything in the state of a call of Wait except the Promises: the caller,
the counter, the local channel and the goroutines Wait launched. -/
def WaitSt.control {T V : Type} (s : WaitSt T V) :
    WaitPc × Int × Bool × List Worker × Option WaiterPc :=
  (s.pc, s.wg, s.done, s.workers, s.waiter)

/-- Two Promises whose work both succeeds, as Execute returned them. -/
def fiveScenario : List (Cell Nat Nat) :=
  [Cell.launched ⟨false⟩ 0 five, Cell.launched ⟨false⟩ 0 five]

/-- The cell of `Execute(ctx, 0, boom)` once its goroutine has finished. -/
def boomCompleted : Cell Nat Nat :=
  { ctx := ⟨false⟩, input := 0, f := boom, p := ⟨0, some "boom", true⟩,
    task := some TaskPc.exited, calls := [(⟨false⟩, 0)], closes := 1 }

/-! ## Invariants -/

/-- The Promise of a cell holds what the call of `f` left: the returned pair,
or, when the call unwound, still the zero value and the nil error. -/
def Cell.Settled {T V : Type} [Inhabited V] (c : Cell T V) : Prop :=
  c.f c.ctx c.input = Outcome.returned (c.p.val, c.p.err) ∨
    (c.f c.ctx c.input = Outcome.unwound ∧ c.p.val = default ∧ c.p.err = none)

/-- What holds of a cell at each point of its goroutine: the channel is closed
only at the very end, after the one call of `f` has returned and both fields
hold its result, or after it has unwound and both fields are untouched. -/
def Cell.Inv {T V : Type} [Inhabited V] (c : Cell T V) : Prop :=
  match c.task with
  | none => c.p = Promise.fresh V ∧ c.calls = [] ∧ c.closes = 0
  | some TaskPc.entry => c.p = Promise.fresh V ∧ c.calls = [] ∧ c.closes = 0
  | some TaskPc.inCall =>
    c.f c.ctx c.input = Outcome.blocked ∧ c.p.done = false ∧
      c.calls = [(c.ctx, c.input)] ∧ c.closes = 0
  | some (TaskPc.storeVal r) =>
    c.f c.ctx c.input = Outcome.returned r ∧ c.p.done = false ∧
      c.calls = [(c.ctx, c.input)] ∧ c.closes = 0
  | some (TaskPc.storeErr r) =>
    c.f c.ctx c.input = Outcome.returned r ∧ c.p.val = r.1 ∧ c.p.done = false ∧
      c.calls = [(c.ctx, c.input)] ∧ c.closes = 0
  | some TaskPc.deferred =>
    c.Settled ∧ c.p.done = false ∧ c.calls = [(c.ctx, c.input)] ∧ c.closes = 0
  | some TaskPc.exited =>
    c.Settled ∧ c.p.done = true ∧ c.calls = [(c.ctx, c.input)] ∧ c.closes = 1

/-- What holds of the caller at each of its program points. -/
def ExecSt.MainInv {T V : Type} [Inhabited V] (s : ExecSt T V) : Prop :=
  match s.main with
  | MainPc.execInit => s.cell.task = none ∧ s.cell.p = Promise.fresh V
  | MainPc.execGo => s.cell.task = none ∧ s.cell.p = Promise.fresh V
  | MainPc.execRet => s.cell.task.isSome = true
  | MainPc.getRecv => s.cell.task.isSome = true
  | MainPc.getRet => s.cell.task.isSome = true ∧ s.cell.p.done = true
  | MainPc.finished r =>
    s.cell.task.isSome = true ∧ s.cell.p.done = true ∧ r = (s.cell.p.val, s.cell.p.err)

/-- The invariant of the system `Execute(ctx, t, f).Get()`. -/
def ExecSt.Inv {T V : Type} [Inhabited V] (s : ExecSt T V) : Prop :=
  s.cell.Inv ∧ s.MainInv

/-- The captured variables of a cell are those of the call `Execute(ctx, t, f)`. -/
def Cell.HasEnv {T V : Type} (c : Cell T V) (ctx : Context) (t : T) (f : Func T V) : Prop :=
  c.ctx = ctx ∧ c.input = t ∧ c.f = f

/-- Statements of Execute the caller has run (Execute has three). -/
def execPos {V : Type} : MainPc V → Nat
  | MainPc.execInit => 0
  | MainPc.execGo => 1
  | MainPc.execRet => 2
  | _ => 3

/-- No thread can move: the execution is complete. -/
def ExecSt.Stuck {T V : Type} [Inhabited V] (s : ExecSt T V) : Prop :=
  ∀ tid, ExecSt.step tid s = none

/-- The cells `ws` are, position by position, reachable states of the Execute
calls `jobs`: each satisfies the cell invariant and still holds the captured
variables of its call. -/
def CellsOf {T V : Type} [Inhabited V] (jobs : List (Job T V)) (ws : List (Cell T V)) : Prop :=
  ∀ (i : Nat) (c : Cell T V), ws[i]? = some c →
    c.Inv ∧ ∃ j : Job T V, jobs[i]? = some j ∧ c.HasEnv j.ctx j.input j.f

/-! ## Lemmas on the launched goroutine -/

theorem Execute.taskStep_env {T V : Type} [Inhabited V] {c c2 : Cell T V} (h : Execute.taskStep c = some c2) :
    c2.ctx = c.ctx ∧ c2.input = c.input ∧ c2.f = c.f := by
  unfold Execute.taskStep at h
  split at h
  · split at h <;> (cases h; exact ⟨rfl, rfl, rfl⟩)
  all_goals first | (cases h; exact ⟨rfl, rfl, rfl⟩) | exact absurd h (by simp)

theorem Execute.taskStep_inv {T V : Type} [Inhabited V] {c c2 : Cell T V} (hi : c.Inv) (h : Execute.taskStep c = some c2) :
    c2.Inv := by
  obtain ⟨ctx, t, f, p, task, calls, closes⟩ := c
  cases task with
  | none => simp [Execute.taskStep] at h
  | some pc =>
    cases pc with
    | entry =>
      simp only [Execute.taskStep] at h
      split at h <;> (cases h; simp_all [Cell.Inv, Cell.Settled, Promise.fresh])
    | inCall => simp [Execute.taskStep] at h
    | storeVal r => simp only [Execute.taskStep] at h; cases h; simp_all [Cell.Inv, Cell.Settled, Promise.fresh]
    | storeErr r => simp only [Execute.taskStep] at h; cases h; simp_all [Cell.Inv, Cell.Settled, Promise.fresh]
    | deferred => simp only [Execute.taskStep] at h; cases h; simp_all [Cell.Inv, Cell.Settled, Promise.fresh]
    | exited => simp [Execute.taskStep] at h

theorem Execute.taskStep_remaining {T V : Type} [Inhabited V] {c c2 : Cell T V} (h : Execute.taskStep c = some c2) :
    taskRemaining c2.task < taskRemaining c.task := by
  obtain ⟨ctx, t, f, p, task, calls, closes⟩ := c
  cases task with
  | none => simp [Execute.taskStep] at h
  | some pc =>
    cases pc with
    | entry =>
      simp only [Execute.taskStep] at h
      split at h <;> (cases h; simp [taskRemaining])
    | inCall => simp [Execute.taskStep] at h
    | storeVal r => simp only [Execute.taskStep] at h; cases h; simp [taskRemaining]
    | storeErr r => simp only [Execute.taskStep] at h; cases h; simp [taskRemaining]
    | deferred => simp only [Execute.taskStep] at h; cases h; simp [taskRemaining]
    | exited => simp [Execute.taskStep] at h

theorem Execute.taskStep_task_isSome {T V : Type} [Inhabited V] {c c2 : Cell T V} (h : Execute.taskStep c = some c2) :
    c.task.isSome = true ∧ c2.task.isSome = true := by
  obtain ⟨ctx, t, f, p, task, calls, closes⟩ := c
  cases task with
  | none => simp [Execute.taskStep] at h
  | some pc =>
    cases pc with
    | entry =>
      simp only [Execute.taskStep] at h
      split at h <;> (cases h; simp)
    | inCall => simp [Execute.taskStep] at h
    | storeVal r => simp only [Execute.taskStep] at h; cases h; simp
    | storeErr r => simp only [Execute.taskStep] at h; cases h; simp
    | deferred => simp only [Execute.taskStep] at h; cases h; simp
    | exited => simp [Execute.taskStep] at h

/-- A goroutine step writes to the Promise only while its channel is open. -/
theorem Execute.taskStep_frozen {T V : Type} [Inhabited V] {c c2 : Cell T V} (hi : c.Inv) (h : Execute.taskStep c = some c2)
    (hd : c.p.done = true) : False := by
  obtain ⟨ctx, t, f, p, task, calls, closes⟩ := c
  cases task with
  | none => simp [Execute.taskStep] at h
  | some pc =>
    cases pc <;> simp_all [Execute.taskStep, Cell.Inv, Cell.Settled, Promise.fresh]

/-! ## Lemmas on the system `Execute(ctx, t, f).Get()` -/

theorem ExecSt.init_inv {T V : Type} [Inhabited V] (ctx : Context) (t : T) (f : Func T V) :
    (ExecSt.init ctx t f).Inv := by
  simp [ExecSt.Inv, ExecSt.MainInv, Cell.Inv, ExecSt.init, Promise.fresh]

theorem ExecSt.step_inv {T V : Type} [Inhabited V] {tid : Tid} {s s2 : ExecSt T V}
    (hi : s.Inv) (h : ExecSt.step tid s = some s2) : s2.Inv := by
  obtain ⟨c, m⟩ := s
  obtain ⟨hc, hm⟩ := hi
  cases tid with
  | task =>
    simp only [ExecSt.step] at h
    split at h
    · rename_i c2 hts
      cases h
      refine ⟨Execute.taskStep_inv hc hts, ?_⟩
      have hsome := Execute.taskStep_task_isSome hts
      have hfro := fun hd => Execute.taskStep_frozen hc hts hd
      cases m <;> simp_all [ExecSt.MainInv]
    · exact absurd h (by simp)
  | main =>
    simp only [ExecSt.step, mainStep] at h
    cases m with
    | execInit =>
      cases h
      simp_all [ExecSt.Inv, ExecSt.MainInv, Cell.Inv, Promise.fresh]
    | execGo =>
      cases h
      simp_all [ExecSt.Inv, ExecSt.MainInv, Cell.Inv, Promise.fresh]
    | execRet =>
      cases h
      simp_all [ExecSt.Inv, ExecSt.MainInv]
    | getRecv =>
      simp only at h
      split at h
      · rename_i hr
        cases h
        simp_all [ExecSt.Inv, ExecSt.MainInv, Promise.recvDone]
      · exact absurd h (by simp)
    | getRet =>
      cases h
      simp_all [ExecSt.Inv, ExecSt.MainInv]
    | finished r => simp at h

theorem ExecSt.run_inv {T V : Type} [Inhabited V] (sched : List Tid) (s : ExecSt T V)
    (hi : s.Inv) : (ExecSt.run sched s).Inv := by
  induction sched generalizing s with
  | nil => exact hi
  | cons tid rest ih =>
    simp only [ExecSt.run]
    split
    · rename_i s2 hs
      exact ih s2 (ExecSt.step_inv hi hs)
    · exact ih s hi

theorem ExecSt.step_env {T V : Type} [Inhabited V] {tid : Tid} {s s2 : ExecSt T V}
    (h : ExecSt.step tid s = some s2) :
    s2.cell.ctx = s.cell.ctx ∧ s2.cell.input = s.cell.input ∧ s2.cell.f = s.cell.f := by
  obtain ⟨c, m⟩ := s
  cases tid with
  | task =>
    simp only [ExecSt.step] at h
    split at h
    · rename_i c2 hts
      cases h
      exact Execute.taskStep_env hts
    · exact absurd h (by simp)
  | main =>
    simp only [ExecSt.step, mainStep] at h
    cases m with
    | getRecv =>
      simp only at h
      split at h
      · cases h; exact ⟨rfl, rfl, rfl⟩
      · exact absurd h (by simp)
    | finished r => simp at h
    | _ => cases h; exact ⟨rfl, rfl, rfl⟩

theorem ExecSt.run_env {T V : Type} [Inhabited V] (sched : List Tid) (s : ExecSt T V) :
    (ExecSt.run sched s).cell.ctx = s.cell.ctx ∧ (ExecSt.run sched s).cell.input = s.cell.input ∧
      (ExecSt.run sched s).cell.f = s.cell.f := by
  induction sched generalizing s with
  | nil => exact ⟨rfl, rfl, rfl⟩
  | cons tid rest ih =>
    simp only [ExecSt.run]
    split
    · rename_i s2 hs
      obtain ⟨h1, h2, h3⟩ := ExecSt.step_env hs
      obtain ⟨g1, g2, g3⟩ := ih s2
      exact ⟨g1.trans h1, g2.trans h2, g3.trans h3⟩
    · exact ih s

theorem ExecSt.step_remaining {T V : Type} [Inhabited V] {tid : Tid} {s s2 : ExecSt T V}
    (hi : s.Inv) (h : ExecSt.step tid s = some s2) : s2.remaining < s.remaining := by
  obtain ⟨c, m⟩ := s
  cases tid with
  | task =>
    simp only [ExecSt.step] at h
    split at h
    · rename_i c2 hts
      cases h
      have := Execute.taskStep_remaining hts
      simp only [ExecSt.remaining]
      omega
    · exact absurd h (by simp)
  | main =>
    simp only [ExecSt.step, mainStep] at h
    cases m with
    | getRecv =>
      simp only at h
      split at h
      · cases h; simp [ExecSt.remaining, mainRemaining]
      · exact absurd h (by simp)
    | finished r => simp at h
    | execGo =>
      cases h
      have ht : c.task = none := hi.2.1
      simp [ExecSt.remaining, mainRemaining, taskRemaining, ht]
    | _ => cases h; simp [ExecSt.remaining, mainRemaining]

/-- When no thread can move and the call of the work function ends (by
returning or by unwinding), Get has returned. -/
theorem ExecSt.stuck_finished {T V : Type} [Inhabited V] {s : ExecSt T V} (hi : s.Inv)
    (hstuck : ∀ tid, ExecSt.step tid s = none)
    (hf : s.cell.f s.cell.ctx s.cell.input ≠ Outcome.blocked) :
    ∃ r, s.main = MainPc.finished r := by
  obtain ⟨c, m⟩ := s
  obtain ⟨ctx, t, f, p, task, calls, closes⟩ := c
  have hm := hstuck Tid.main
  have ht := hstuck Tid.task
  obtain ⟨hc, hmi⟩ := hi
  cases m with
  | execInit => simp [ExecSt.step, mainStep] at hm
  | execGo => simp [ExecSt.step, mainStep] at hm
  | execRet => simp [ExecSt.step, mainStep] at hm
  | getRet => simp [ExecSt.step, mainStep] at hm
  | finished r => exact ⟨r, rfl⟩
  | getRecv =>
    exfalso
    simp only [ExecSt.step, mainStep, Promise.recvDone] at hm
    cases task with
    | none => simp [ExecSt.MainInv] at hmi
    | some pc =>
      cases pc with
      | entry => cases hft : f ctx t <;> simp [ExecSt.step, Execute.taskStep, hft] at ht
      | inCall => simp_all [Cell.Inv, Cell.Settled, Promise.fresh]
      | storeVal r => simp [ExecSt.step, Execute.taskStep] at ht
      | storeErr r => simp [ExecSt.step, Execute.taskStep] at ht
      | deferred => simp [ExecSt.step, Execute.taskStep] at ht
      | exited => simp_all [Cell.Inv, Cell.Settled, Promise.fresh]

theorem ExecSt.run_append {T V : Type} [Inhabited V] (a b : List Tid) (s : ExecSt T V) :
    ExecSt.run (a ++ b) s = ExecSt.run b (ExecSt.run a s) := by
  induction a generalizing s with
  | nil => rfl
  | cons tid rest ih =>
    simp only [List.cons_append, ExecSt.run]
    split
    · exact ih _
    · exact ih _

theorem execPos_le {V : Type} (m : MainPc V) : execPos m ≤ 3 := by
  cases m <;> simp [execPos]

theorem execReturned_iff_pos {V : Type} (m : MainPc V) :
    m.execReturned = true ↔ execPos m = 3 := by
  cases m <;> simp [MainPc.execReturned, execPos]

/-- The statements of Execute are always enabled, and only the caller moves
through them. -/
theorem ExecSt.run_execPos {T V : Type} [Inhabited V] (sched : List Tid) (s : ExecSt T V) :
    execPos (ExecSt.run sched s).main = min 3 (execPos s.main + sched.count Tid.main) := by
  induction sched generalizing s with
  | nil =>
    have := execPos_le s.main
    simp only [ExecSt.run, List.count_nil]
    omega
  | cons tid rest ih =>
    obtain ⟨c, m⟩ := s
    cases tid with
    | task =>
      simp only [ExecSt.run, ExecSt.step]
      have hc : List.count Tid.main (Tid.task :: rest) = List.count Tid.main rest := by
        simp [List.count_cons]
      rw [hc]
      split
      · rename_i s2 hs
        split at hs
        · cases hs; rw [ih]
        · exact absurd hs (by simp)
      · rw [ih]
    | main =>
      have hc : List.count Tid.main (Tid.main :: rest) = List.count Tid.main rest + 1 := by
        simp [List.count_cons]
      rw [hc]
      cases m with
      | execInit => simp only [ExecSt.run, ExecSt.step, mainStep]; rw [ih]; simp only [execPos]; omega
      | execGo => simp only [ExecSt.run, ExecSt.step, mainStep]; rw [ih]; simp only [execPos]; omega
      | execRet => simp only [ExecSt.run, ExecSt.step, mainStep]; rw [ih]; simp only [execPos]; omega
      | getRecv =>
        simp only [ExecSt.run, ExecSt.step, mainStep]
        split
        · rename_i s2 hs
          split at hs
          · cases hs; rw [ih]; simp only [execPos]; omega
          · exact absurd hs (by simp)
        · rw [ih]; simp only [execPos]; omega
      | getRet => simp only [ExecSt.run, ExecSt.step, mainStep]; rw [ih]; simp only [execPos]; omega
      | finished r => simp only [ExecSt.run, ExecSt.step, mainStep]; rw [ih]; simp only [execPos]; omega

/-- From every state of the system an execution can be completed. -/
theorem ExecSt.exists_completion {T V : Type} [Inhabited V] (n : Nat) (s : ExecSt T V)
    (hn : s.remaining ≤ n) (hi : s.Inv) :
    ∃ more, (ExecSt.run more s).Stuck := by
  induction n generalizing s with
  | zero =>
    refine ⟨[], ?_⟩
    intro tid
    cases h : ExecSt.step tid s with
    | none => exact h
    | some s2 =>
      have := ExecSt.step_remaining hi h
      omega
  | succ k ih =>
    by_cases hst : s.Stuck
    · exact ⟨[], hst⟩
    · simp only [ExecSt.Stuck, not_forall] at hst
      obtain ⟨tid, htid⟩ := hst
      cases h : ExecSt.step tid s with
      | none => exact absurd h htid
      | some s2 =>
        have hlt := ExecSt.step_remaining hi h
        obtain ⟨more, hmore⟩ := ih s2 (by omega) (ExecSt.step_inv hi h)
        refine ⟨tid :: more, ?_⟩
        simp only [ExecSt.run, h]
        exact hmore

/-- Every state the system reaches satisfies the invariant and keeps the
captured variables of the call. -/
theorem ExecSt.reach {T V : Type} [Inhabited V] (ctx : Context) (t : T) (f : Func T V)
    (sched : List Tid) :
    (ExecSt.run sched (ExecSt.init ctx t f)).Inv ∧
      (ExecSt.run sched (ExecSt.init ctx t f)).cell.HasEnv ctx t f := by
  refine ⟨ExecSt.run_inv sched _ (ExecSt.init_inv ctx t f), ?_⟩
  obtain ⟨h1, h2, h3⟩ := ExecSt.run_env sched (ExecSt.init ctx t f)
  exact ⟨h1, h2, h3⟩

/-- A closed channel means the goroutine has exited, after storing the result
of the call or after the call unwound. -/
theorem Cell.Inv.done_result {T V : Type} [Inhabited V] {c : Cell T V} (hi : c.Inv)
    (hd : c.p.done = true) :
    c.Settled ∧ c.calls = [(c.ctx, c.input)] ∧ c.closes = 1 := by
  obtain ⟨ctx, t, f, p, task, calls, closes⟩ := c
  cases task with
  | none => simp_all [Cell.Inv, Cell.Settled, Promise.fresh]
  | some pc => cases pc <;> simp_all [Cell.Inv, Cell.Settled, Promise.fresh]

theorem Cell.Inv.open_closes {T V : Type} [Inhabited V] {c : Cell T V} (hi : c.Inv) (hd : c.p.done = false) :
    c.closes = 0 := by
  obtain ⟨ctx, t, f, p, task, calls, closes⟩ := c
  cases task with
  | none => simp_all [Cell.Inv, Cell.Settled, Promise.fresh]
  | some pc => cases pc <;> simp_all [Cell.Inv, Cell.Settled, Promise.fresh]

theorem Cell.Inv.calls_cases {T V : Type} [Inhabited V] {c : Cell T V} (hi : c.Inv) :
    c.calls = [] ∨ c.calls = [(c.ctx, c.input)] := by
  obtain ⟨ctx, t, f, p, task, calls, closes⟩ := c
  cases task with
  | none => simp_all [Cell.Inv, Cell.Settled, Promise.fresh]
  | some pc => cases pc <;> simp_all [Cell.Inv, Cell.Settled, Promise.fresh]

theorem ExecSt.Inv.finished_result {T V : Type} [Inhabited V] {s : ExecSt T V} (hi : s.Inv)
    {r : V × Error} (hm : s.main = MainPc.finished r) :
    s.cell.p.done = true ∧ r = (s.cell.p.val, s.cell.p.err) := by
  obtain ⟨c, m⟩ := s
  obtain ⟨_, hmi⟩ := hi
  simp only at hm
  subst hm
  exact ⟨hmi.2.1, hmi.2.2⟩

/-- A step of the goroutine happens while the channel is open, and either
leaves it open or closes it without touching `val` and `err`, which then
already hold what the call left. -/
theorem Execute.taskStep_write {T V : Type} [Inhabited V] {c c2 : Cell T V} (hi : c.Inv)
    (h : Execute.taskStep c = some c2) :
    c.p.done = false ∧
      (c2.p.done = false ∨ (c2.p.val = c.p.val ∧ c2.p.err = c.p.err ∧ c.Settled)) := by
  obtain ⟨ctx, t, f, p, task, calls, closes⟩ := c
  cases task with
  | none => simp [Execute.taskStep] at h
  | some pc =>
    cases pc with
    | entry =>
      simp only [Execute.taskStep] at h
      split at h <;> (cases h; simp_all [Cell.Inv, Cell.Settled, Promise.fresh])
    | inCall => simp [Execute.taskStep] at h
    | storeVal r => simp only [Execute.taskStep] at h; cases h; simp_all [Cell.Inv, Cell.Settled, Promise.fresh]
    | storeErr r => simp only [Execute.taskStep] at h; cases h; simp_all [Cell.Inv, Cell.Settled, Promise.fresh]
    | deferred => simp only [Execute.taskStep] at h; cases h; simp_all [Cell.Inv, Cell.Settled, Promise.fresh]
    | exited => simp [Execute.taskStep] at h

/-- The caller never writes to a Promise that exists: the only assignment,
in Execute, builds it. -/
theorem mainStep_p {T V : Type} [Inhabited V] {s s2 : ExecSt T V} (hi : s.Inv)
    (h : mainStep s = some s2) : s2.cell.p = s.cell.p ∧ s2.cell.calls = s.cell.calls ∧
      s2.cell.closes = s.cell.closes := by
  obtain ⟨c, m⟩ := s
  obtain ⟨_, hmi⟩ := hi
  simp only [mainStep] at h
  cases m with
  | execInit => cases h; exact ⟨hmi.2.symm, rfl, rfl⟩
  | getRecv =>
    simp only at h
    split at h
    · cases h; exact ⟨rfl, rfl, rfl⟩
    · exact absurd h (by simp)
  | finished r => simp at h
  | _ => cases h; exact ⟨rfl, rfl, rfl⟩

/-- Writes to a Promise: a transition either leaves the Promise as it is, or is
a step of the goroutine taken while the channel is open. -/
theorem ExecSt.step_write {T V : Type} [Inhabited V] {tid : Tid} {s s2 : ExecSt T V}
    (hi : s.Inv) (h : ExecSt.step tid s = some s2) :
    s2.cell.p = s.cell.p ∨
      (tid = Tid.task ∧ s.cell.p.done = false ∧
        (s2.cell.p.done = false ∨
          (s2.cell.p.val = s.cell.p.val ∧ s2.cell.p.err = s.cell.p.err ∧
            s.cell.Settled))) := by
  cases tid with
  | main => exact Or.inl (mainStep_p hi h).1
  | task =>
    obtain ⟨c, m⟩ := s
    simp only [ExecSt.step] at h
    split at h
    · rename_i c2 hts
      cases h
      exact Or.inr ⟨rfl, Execute.taskStep_write hi.1 hts⟩
    · exact absurd h (by simp)

/-- Once the channel is closed the Promise never changes again. -/
theorem ExecSt.run_frozen {T V : Type} [Inhabited V] (more : List Tid) (s : ExecSt T V)
    (hi : s.Inv) (hd : s.cell.p.done = true) : (ExecSt.run more s).cell.p = s.cell.p := by
  induction more generalizing s with
  | nil => rfl
  | cons tid rest ih =>
    simp only [ExecSt.run]
    split
    · rename_i s2 hs
      have hp : s2.cell.p = s.cell.p := by
        rcases ExecSt.step_write hi hs with h | ⟨_, h, _⟩
        · exact h
        · rw [hd] at h; exact absurd h (by simp)
      rw [ih s2 (ExecSt.step_inv hi hs) (by rw [hp]; exact hd), hp]
    · exact ih s hi hd

/-- A complete execution has called the work function. -/
theorem ExecSt.stuck_calls {T V : Type} [Inhabited V] {s : ExecSt T V} (hi : s.Inv)
    (hstuck : s.Stuck) : s.cell.calls = [(s.cell.ctx, s.cell.input)] := by
  obtain ⟨c, m⟩ := s
  obtain ⟨ctx, t, f, p, task, calls, closes⟩ := c
  have hm := hstuck Tid.main
  have ht := hstuck Tid.task
  obtain ⟨hc, hmi⟩ := hi
  cases task with
  | none => cases m <;> simp_all [ExecSt.MainInv, ExecSt.step, mainStep]
  | some pc =>
    cases pc with
    | entry => cases hft : f ctx t <;> simp [ExecSt.step, Execute.taskStep, hft] at ht
    | inCall => simp_all [Cell.Inv, Cell.Settled, Promise.fresh]
    | storeVal r => simp [ExecSt.step, Execute.taskStep] at ht
    | storeErr r => simp [ExecSt.step, Execute.taskStep] at ht
    | deferred => simp [ExecSt.step, Execute.taskStep] at ht
    | exited => simp_all [Cell.Inv, Cell.Settled, Promise.fresh]

/-- In a state reached by `Execute(ctx, t, f)`, what the Promise holds once the
call of `f` has ended, in terms of the arguments of Execute. -/
theorem ExecSt.reach_settled {T V : Type} [Inhabited V] (ctx : Context) (t : T) (f : Func T V)
    (sched : List Tid) (hd : (ExecSt.run sched (ExecSt.init ctx t f)).cell.p.done = true) :
    f ctx t = Outcome.returned ((ExecSt.run sched (ExecSt.init ctx t f)).cell.p.val,
        (ExecSt.run sched (ExecSt.init ctx t f)).cell.p.err) ∨
      (f ctx t = Outcome.unwound ∧
        (ExecSt.run sched (ExecSt.init ctx t f)).cell.p.val = default ∧
        (ExecSt.run sched (ExecSt.init ctx t f)).cell.p.err = none) := by
  obtain ⟨hi, h1, h2, h3⟩ := ExecSt.reach ctx t f sched
  have hres := (hi.1.done_result hd).1
  unfold Cell.Settled at hres
  rw [h1, h2, h3] at hres
  exact hres

theorem ExecSt.run_schedule_cons {T V : Type} [Inhabited V] (tid : Tid) (rest : List Tid)
    (s : ExecSt T V) :
    ExecSt.run (tid :: rest) s = ExecSt.run rest ((ExecSt.step tid s).getD s) := by
  simp only [ExecSt.run]
  cases ExecSt.step tid s <;> rfl

/-- Caller, Promise and goroutine move the same way in two systems that agree
on them and on the outcome of the call of the work function: nothing else
about `ctx`, `t` or `f` is ever looked at. -/
theorem ExecSt.step_outcome {T V : Type} [Inhabited V] (tid : Tid) (s s2 : ExecSt T V)
    (hm : s.main = s2.main) (hp : s.cell.p = s2.cell.p) (ht : s.cell.task = s2.cell.task)
    (ho : s.cell.f s.cell.ctx s.cell.input = s2.cell.f s2.cell.ctx s2.cell.input) :
    ((ExecSt.step tid s).getD s).main = ((ExecSt.step tid s2).getD s2).main ∧
    ((ExecSt.step tid s).getD s).cell.p = ((ExecSt.step tid s2).getD s2).cell.p ∧
    ((ExecSt.step tid s).getD s).cell.task = ((ExecSt.step tid s2).getD s2).cell.task ∧
    ((ExecSt.step tid s).getD s).cell.f ((ExecSt.step tid s).getD s).cell.ctx
        ((ExecSt.step tid s).getD s).cell.input =
      ((ExecSt.step tid s2).getD s2).cell.f ((ExecSt.step tid s2).getD s2).cell.ctx
        ((ExecSt.step tid s2).getD s2).cell.input := by
  obtain ⟨⟨ctx, t, f, p, task, calls, closes⟩, m⟩ := s
  obtain ⟨⟨ctx2, t2, f2, p2, task2, calls2, closes2⟩, m2⟩ := s2
  simp only at hm hp ht ho
  subst hm hp ht
  cases tid with
  | main =>
    cases m with
    | getRecv =>
      simp only [ExecSt.step, mainStep, Promise.recvDone]
      cases hd : p.done <;> simp [ho]
    | _ => simp [ExecSt.step, mainStep, ho]
  | task =>
    cases task with
    | none => simp [ExecSt.step, Execute.taskStep, ho]
    | some pc =>
      cases pc with
      | entry =>
        simp only [ExecSt.step, Execute.taskStep]
        rw [ho]
        cases hc : f2 ctx2 t2 <;> simp [ho, hc]
      | _ => simp [ExecSt.step, Execute.taskStep, ho]

theorem ExecSt.run_outcome {T V : Type} [Inhabited V] (sched : List Tid) (s s2 : ExecSt T V)
    (hm : s.main = s2.main) (hp : s.cell.p = s2.cell.p) (ht : s.cell.task = s2.cell.task)
    (ho : s.cell.f s.cell.ctx s.cell.input = s2.cell.f s2.cell.ctx s2.cell.input) :
    (ExecSt.run sched s).main = (ExecSt.run sched s2).main ∧
    (ExecSt.run sched s).cell.p = (ExecSt.run sched s2).cell.p := by
  induction sched generalizing s s2 with
  | nil => exact ⟨hm, hp⟩
  | cons tid rest ih =>
    rw [ExecSt.run_schedule_cons, ExecSt.run_schedule_cons]
    obtain ⟨g1, g2, g3, g4⟩ := ExecSt.step_outcome tid s s2 hm hp ht ho
    exact ih _ _ g1 g2 g3 g4

/-! ## Execute and Get: the claims -/

/-- C1: for a work function that returns `(v, e)` on `(ctx, t)`, the call
`Execute(ctx, t, f).Get()` returns exactly `(v, e)` under every interleaving of
the caller and the launched goroutine: a Get that has returned has returned
`(v, e)`; every execution that cannot be extended ends with Get returned
`(v, e)`; every execution can be extended to such an end; and executions are
finite, each transition lowering a measure that starts at 9. -/
theorem execute_get_returns_work_result {T V : Type} [Inhabited V] (ctx : Context) (t : T)
    (f : Func T V) (v : V) (e : Error) (hf : f ctx t = Outcome.returned (v, e)) :
    (∀ sched r, (ExecSt.run sched (ExecSt.init ctx t f)).main = MainPc.finished r → r = (v, e)) ∧
    (∀ sched, (ExecSt.run sched (ExecSt.init ctx t f)).Stuck →
      (ExecSt.run sched (ExecSt.init ctx t f)).main = MainPc.finished (v, e)) ∧
    (∀ sched, ∃ more,
      (ExecSt.run (sched ++ more) (ExecSt.init ctx t f)).main = MainPc.finished (v, e)) ∧
    (∀ sched tid s2, ExecSt.step tid (ExecSt.run sched (ExecSt.init ctx t f)) = some s2 →
      s2.remaining < (ExecSt.run sched (ExecSt.init ctx t f)).remaining) ∧
    (ExecSt.init ctx t f).remaining = 9 := by
  have safety : ∀ sched r,
      (ExecSt.run sched (ExecSt.init ctx t f)).main = MainPc.finished r → r = (v, e) := by
    intro sched r hr
    obtain ⟨hi, _⟩ := ExecSt.reach ctx t f sched
    obtain ⟨hd, hrv⟩ := hi.finished_result hr
    rcases ExecSt.reach_settled ctx t f sched hd with hres | ⟨hres, _⟩
    · rw [hf] at hres
      rw [hrv]
      exact (Outcome.returned.inj hres).symm
    · rw [hf] at hres
      exact absurd hres (by simp)
  have maximal : ∀ sched, (ExecSt.run sched (ExecSt.init ctx t f)).Stuck →
      (ExecSt.run sched (ExecSt.init ctx t f)).main = MainPc.finished (v, e) := by
    intro sched hst
    obtain ⟨hi, h1, h2, h3⟩ := ExecSt.reach ctx t f sched
    have hnb : (ExecSt.run sched (ExecSt.init ctx t f)).cell.f
        (ExecSt.run sched (ExecSt.init ctx t f)).cell.ctx
        (ExecSt.run sched (ExecSt.init ctx t f)).cell.input ≠ Outcome.blocked := by
      rw [h1, h2, h3, hf]; simp
    obtain ⟨r, hr⟩ := ExecSt.stuck_finished hi hst hnb
    rw [hr, safety sched r hr]
  refine ⟨safety, maximal, ?_, ?_, rfl⟩
  · intro sched
    obtain ⟨hi, _⟩ := ExecSt.reach ctx t f sched
    obtain ⟨more, hmore⟩ := ExecSt.exists_completion _ _ (le_refl _) hi
    refine ⟨more, ?_⟩
    rw [← ExecSt.run_append] at hmore
    exact maximal _ hmore
  · intro sched tid s2 hs
    exact ExecSt.step_remaining (ExecSt.reach ctx t f sched).1 hs

/-- Witness of C1: squaring 3 through Execute and Get; the execution in which
the caller runs Execute, the goroutine runs to its end and the caller runs Get
is complete and Get has returned `(9, nil)`. -/
theorem execute_get_returns_work_result_witness :
    square ⟨false⟩ 3 = Outcome.returned (9, none) ∧
    (ExecSt.run [Tid.main, Tid.main, Tid.main, Tid.task, Tid.task, Tid.task, Tid.task,
      Tid.main, Tid.main] (ExecSt.init ⟨false⟩ 3 square)).main = MainPc.finished (9, none) :=
  ⟨rfl, (execute_get_returns_work_result ⟨false⟩ 3 square 9 none rfl).2.1
    [Tid.main, Tid.main, Tid.main, Tid.task, Tid.task, Tid.task, Tid.task, Tid.main, Tid.main]
    (by intro tid; cases tid <;> rfl)⟩

/-- C4: on a Promise whose channel is closed, any number `n` of successive
calls of Get all return (none blocks), each returns the same pair
`(p.val, p.err)`, and the Promise is left as it was. -/
theorem get_idempotent {V : Type} (p : Promise V) (hd : p.done = true) (n : Nat) :
    p.Get = some ((p.val, p.err), p) ∧
    Promise.getN n p = some (List.replicate n (p.val, p.err), p) := by
  have hg : p.Get = some ((p.val, p.err), p) := by
    simp [Promise.Get, Promise.recvDone, hd]
  refine ⟨hg, ?_⟩
  induction n with
  | zero => rfl
  | succ k ih => simp [Promise.getN, hg, ih, List.replicate_succ]

/-- Witness of C4: three calls of Get on a completed Promise holding `(9, nil)`. -/
theorem get_idempotent_witness :
    (⟨9, none, true⟩ : Promise Nat).done = true ∧
    Promise.getN 3 (⟨9, none, true⟩ : Promise Nat) =
      some ([(9, none), (9, none), (9, none)], ⟨9, none, true⟩) :=
  ⟨rfl, (get_idempotent (⟨9, none, true⟩ : Promise Nat) rfl 3).2⟩

/-- C6: Execute returns after three statements of its caller and of nobody
else: under every schedule, and for every work function (returning, never
ending or unwinding), Execute has returned exactly when the caller has been
scheduled three times, whatever the launched goroutine did or did not do.
After the caller ran alone the Promise is still pending and the goroutine has
not started; and with a call of the work function that never ends the Promise
stays pending for ever while Execute has returned all the same. -/
theorem execute_never_blocks {T V : Type} [Inhabited V] (ctx : Context) (t : T) (f : Func T V) :
    (∀ sched, (ExecSt.run sched (ExecSt.init ctx t f)).main.execReturned = true ↔
      3 ≤ sched.count Tid.main) ∧
    ((ExecSt.run [Tid.main, Tid.main, Tid.main] (ExecSt.init ctx t f)).main.execReturned = true ∧
      (ExecSt.run [Tid.main, Tid.main, Tid.main] (ExecSt.init ctx t f)).cell.p.done = false ∧
      (ExecSt.run [Tid.main, Tid.main, Tid.main] (ExecSt.init ctx t f)).cell.calls = []) ∧
    (f ctx t = Outcome.blocked → ∀ sched,
      (ExecSt.run sched (ExecSt.init ctx t f)).cell.p.done = false) := by
  refine ⟨?_, ⟨rfl, rfl, rfl⟩, ?_⟩
  · intro sched
    rw [execReturned_iff_pos, ExecSt.run_execPos]
    simp only [ExecSt.init, execPos]
    omega
  · intro hf sched
    cases hd : (ExecSt.run sched (ExecSt.init ctx t f)).cell.p.done with
    | false => rfl
    | true =>
      rcases ExecSt.reach_settled ctx t f sched hd with hres | ⟨hres, _⟩
      · rw [hf] at hres; exact absurd hres (by simp)
      · rw [hf] at hres; exact absurd hres (by simp)

/-- Witness of C6: with work that never ends, Execute has returned after
three steps of its caller, and the Promise is pending however often the
goroutine is scheduled. -/
theorem execute_never_blocks_witness :
    forever ⟨false⟩ 0 = Outcome.blocked ∧
    (ExecSt.run [Tid.main, Tid.main, Tid.main] (ExecSt.init ⟨false⟩ 0 forever)).main.execReturned
      = true ∧
    (ExecSt.run [Tid.main, Tid.main, Tid.task, Tid.task, Tid.main, Tid.task, Tid.main]
      (ExecSt.init ⟨false⟩ 0 forever)).cell.p.done = false :=
  ⟨rfl, (execute_never_blocks ⟨false⟩ 0 forever).2.1.1,
    (execute_never_blocks ⟨false⟩ 0 forever).2.2 rfl
      [Tid.main, Tid.main, Tid.task, Tid.task, Tid.main, Tid.task, Tid.main]⟩

/-- C7 as stated fails: with a cancelled context and work that ends its
goroutine without returning, the work was called once with `(ctx, t)`, the
deferred `close(done)` ran, and Get has returned `(0, nil)`, which is not a
result of `f(ctx, t)`: that call returned nothing. -/
theorem cancelled_unwound_get_returns_zero :
    (ExecSt.run [Tid.main, Tid.main, Tid.main, Tid.task, Tid.task, Tid.main, Tid.main]
      (ExecSt.init ⟨true⟩ 0 crash)).main = MainPc.finished (0, none) ∧
    (ExecSt.run [Tid.main, Tid.main, Tid.main, Tid.task, Tid.task, Tid.main, Tid.main]
      (ExecSt.init ⟨true⟩ 0 crash)).cell.calls = [(⟨true⟩, 0)] ∧
    crash ⟨true⟩ 0 ≠ Outcome.returned (0, none) :=
  ⟨rfl, rfl, by decide⟩

/-- C7, amended: whatever `ctx` is, cancelled or not, the goroutine launched by
`Execute(ctx, t, f)` calls `f` at most once and only with `(ctx, t)`; once the
channel is closed, once Get has returned, and at the end of every complete
execution it has called `f` exactly once with `(ctx, t)`. A result that Get
returns is the result of that call when the call returned, and is the zero
value with a nil error when the call ended its goroutine without returning.
Execute looks at nothing of `ctx`: with any other context and work function
whose call has the same outcome, caller and Promise go through the same
states under the same schedule. -/
theorem execute_calls_work_once {T V : Type} [Inhabited V] (ctx : Context) (t : T)
    (f : Func T V) (sched : List Tid) :
    ((ExecSt.run sched (ExecSt.init ctx t f)).cell.calls = [] ∨
      (ExecSt.run sched (ExecSt.init ctx t f)).cell.calls = [(ctx, t)]) ∧
    ((ExecSt.run sched (ExecSt.init ctx t f)).cell.p.done = true →
      (ExecSt.run sched (ExecSt.init ctx t f)).cell.calls = [(ctx, t)]) ∧
    ((ExecSt.run sched (ExecSt.init ctx t f)).Stuck →
      (ExecSt.run sched (ExecSt.init ctx t f)).cell.calls = [(ctx, t)]) ∧
    (∀ r, (ExecSt.run sched (ExecSt.init ctx t f)).main = MainPc.finished r →
      (ExecSt.run sched (ExecSt.init ctx t f)).cell.calls = [(ctx, t)] ∧
      (f ctx t = Outcome.returned r ∨ (f ctx t = Outcome.unwound ∧ r = (default, none)))) ∧
    (∀ (ctx2 : Context) (f2 : Func T V), f2 ctx2 t = f ctx t →
      (ExecSt.run sched (ExecSt.init ctx2 t f2)).main =
        (ExecSt.run sched (ExecSt.init ctx t f)).main ∧
      (ExecSt.run sched (ExecSt.init ctx2 t f2)).cell.p =
        (ExecSt.run sched (ExecSt.init ctx t f)).cell.p) := by
  obtain ⟨hi, h1, h2, h3⟩ := ExecSt.reach ctx t f sched
  have hdone : (ExecSt.run sched (ExecSt.init ctx t f)).cell.p.done = true →
      (ExecSt.run sched (ExecSt.init ctx t f)).cell.calls = [(ctx, t)] := by
    intro hd
    have := (hi.1.done_result hd).2.1
    rw [h1, h2] at this
    exact this
  refine ⟨?_, hdone, ?_, ?_, ?_⟩
  · have := hi.1.calls_cases
    rw [h1, h2] at this
    exact this
  · intro hst
    have := ExecSt.stuck_calls hi hst
    rw [h1, h2] at this
    exact this
  · intro r hr
    obtain ⟨hd, hrv⟩ := hi.finished_result hr
    refine ⟨hdone hd, ?_⟩
    rcases ExecSt.reach_settled ctx t f sched hd with hres | ⟨hres, hv, he⟩
    · left; rw [hres, hrv]
    · right; exact ⟨hres, by rw [hrv, hv, he]⟩
  · intro ctx2 f2 ho
    exact ExecSt.run_outcome sched _ _ rfl rfl rfl ho

/-- Witness of C7: with a context that is already cancelled, a complete
execution has called the work function once, with that context and the input. -/
theorem execute_calls_work_once_witness :
    (ExecSt.run [Tid.main, Tid.main, Tid.main, Tid.task, Tid.task, Tid.task, Tid.task,
        Tid.main, Tid.main] (ExecSt.init ⟨true⟩ 3 square)).cell.p.done = true ∧
    (ExecSt.run [Tid.main, Tid.main, Tid.main, Tid.task, Tid.task, Tid.task, Tid.task,
        Tid.main, Tid.main] (ExecSt.init ⟨true⟩ 3 square)).cell.calls = [(⟨true⟩, 3)] :=
  ⟨rfl, (execute_calls_work_once ⟨true⟩ 3 square
    [Tid.main, Tid.main, Tid.main, Tid.task, Tid.task, Tid.task, Tid.task,
      Tid.main, Tid.main]).2.1 rfl⟩

/-- C9 as stated fails: with work that ends its goroutine without returning,
the deferred `close(done)` has closed the channel while `val` and `err` are
still the zero value and nil, which is not a result of `f(ctx, t)`: that call
returned nothing. -/
theorem unwound_signal_set_without_result :
    (ExecSt.run [Tid.main, Tid.main, Tid.task, Tid.task]
      (ExecSt.init ⟨false⟩ 0 crash)).cell.p = ⟨0, none, true⟩ ∧
    crash ⟨false⟩ 0 ≠
      Outcome.returned ((ExecSt.run [Tid.main, Tid.main, Tid.task, Tid.task]
          (ExecSt.init ⟨false⟩ 0 crash)).cell.p.val,
        (ExecSt.run [Tid.main, Tid.main, Tid.task, Tid.task]
          (ExecSt.init ⟨false⟩ 0 crash)).cell.p.err) :=
  ⟨rfl, by decide⟩

/-- C9, amended: in every state reached by `Execute(ctx, t, f)` and a following
Get, a closed channel means that either `f(ctx, t)` returned and `val` and
`err` hold its result, or the call ended its goroutine without returning and
`val` and `err` are still the zero value and nil; when `f(ctx, t)` returns
`(v, e)` a closed Promise is exactly `(v, e)`. A transition that changes `val`
or `err` is a step of the launched goroutine taken while the channel is open
and leaving it open; the transition that closes the channel changes neither.
A Get that is past its receive sees the channel closed, and a Get that has
returned has returned the result of `f(ctx, t)`, or zero and nil when the
call unwound: never a partially written pair. -/
theorem signal_implies_result_written {T V : Type} [Inhabited V] (ctx : Context) (t : T)
    (f : Func T V) (sched : List Tid) :
    ((ExecSt.run sched (ExecSt.init ctx t f)).cell.p.done = true →
      (f ctx t = Outcome.returned ((ExecSt.run sched (ExecSt.init ctx t f)).cell.p.val,
          (ExecSt.run sched (ExecSt.init ctx t f)).cell.p.err) ∨
        (f ctx t = Outcome.unwound ∧
          (ExecSt.run sched (ExecSt.init ctx t f)).cell.p.val = default ∧
          (ExecSt.run sched (ExecSt.init ctx t f)).cell.p.err = none))) ∧
    (∀ v e, f ctx t = Outcome.returned (v, e) →
      (ExecSt.run sched (ExecSt.init ctx t f)).cell.p.done = true →
      (ExecSt.run sched (ExecSt.init ctx t f)).cell.p = ⟨v, e, true⟩) ∧
    (∀ tid s2, ExecSt.step tid (ExecSt.run sched (ExecSt.init ctx t f)) = some s2 →
      (s2.cell.p.val ≠ (ExecSt.run sched (ExecSt.init ctx t f)).cell.p.val ∨
        s2.cell.p.err ≠ (ExecSt.run sched (ExecSt.init ctx t f)).cell.p.err) →
      tid = Tid.task ∧ (ExecSt.run sched (ExecSt.init ctx t f)).cell.p.done = false ∧
        s2.cell.p.done = false) ∧
    (∀ tid s2, ExecSt.step tid (ExecSt.run sched (ExecSt.init ctx t f)) = some s2 →
      (ExecSt.run sched (ExecSt.init ctx t f)).cell.p.done = false → s2.cell.p.done = true →
      tid = Tid.task ∧ s2.cell.p.val = (ExecSt.run sched (ExecSt.init ctx t f)).cell.p.val ∧
        s2.cell.p.err = (ExecSt.run sched (ExecSt.init ctx t f)).cell.p.err) ∧
    ((ExecSt.run sched (ExecSt.init ctx t f)).main = MainPc.getRet →
      (ExecSt.run sched (ExecSt.init ctx t f)).cell.p.done = true) ∧
    (∀ r, (ExecSt.run sched (ExecSt.init ctx t f)).main = MainPc.finished r →
      (f ctx t = Outcome.returned r ∨ (f ctx t = Outcome.unwound ∧ r = (default, none)))) := by
  obtain ⟨hi, h1, h2, h3⟩ := ExecSt.reach ctx t f sched
  refine ⟨ExecSt.reach_settled ctx t f sched, ?_, ?_, ?_, ?_, ?_⟩
  · intro v e hf hd
    rcases ExecSt.reach_settled ctx t f sched hd with hres | ⟨hres, _⟩
    · rw [hf] at hres
      have hve := Outcome.returned.inj hres
      have hv : (ExecSt.run sched (ExecSt.init ctx t f)).cell.p.val = v :=
        (congrArg Prod.fst hve).symm
      have he : (ExecSt.run sched (ExecSt.init ctx t f)).cell.p.err = e :=
        (congrArg Prod.snd hve).symm
      rw [← hv, ← he, ← hd]
    · rw [hf] at hres; exact absurd hres (by simp)
  · intro tid s2 hs hne
    rcases ExecSt.step_write hi hs with hp | ⟨htid, hopen, hrest⟩
    · rw [hp] at hne; simp at hne
    · refine ⟨htid, hopen, ?_⟩
      rcases hrest with h | ⟨hv, he, _⟩
      · exact h
      · rw [hv, he] at hne; simp at hne
  · intro tid s2 hs hopen hclosed
    rcases ExecSt.step_write hi hs with hp | ⟨htid, _, hrest⟩
    · rw [hp, hopen] at hclosed; exact absurd hclosed (by simp)
    · rcases hrest with h | ⟨hv, he, _⟩
      · rw [h] at hclosed; exact absurd hclosed (by simp)
      · exact ⟨htid, hv, he⟩
  · intro hm
    have hmi := hi.2
    unfold ExecSt.MainInv at hmi
    rw [hm] at hmi
    exact hmi.2
  · intro r hr
    obtain ⟨hd, hrv⟩ := hi.finished_result hr
    rcases ExecSt.reach_settled ctx t f sched hd with hres | ⟨hres, hv, he⟩
    · left; rw [hres, hrv]
    · right; exact ⟨hres, by rw [hrv, hv, he]⟩

/-- Witness of C9: after the goroutine of the failing work has run, the
channel is closed and the Promise is exactly the result `(0, "boom")`. -/
theorem signal_implies_result_written_witness :
    boom ⟨false⟩ 0 = Outcome.returned (0, some "boom") ∧
    (ExecSt.run [Tid.main, Tid.main, Tid.task, Tid.task, Tid.task, Tid.task]
      (ExecSt.init ⟨false⟩ 0 boom)).cell.p.done = true ∧
    (ExecSt.run [Tid.main, Tid.main, Tid.task, Tid.task, Tid.task, Tid.task]
      (ExecSt.init ⟨false⟩ 0 boom)).cell.p = ⟨0, some "boom", true⟩ :=
  ⟨rfl, rfl, (signal_implies_result_written ⟨false⟩ 0 boom
    [Tid.main, Tid.main, Tid.task, Tid.task, Tid.task, Tid.task]).2.1 0 (some "boom") rfl rfl⟩

theorem Promise.state_pending_iff {V : Type} (p : Promise V) :
    p.state = PState.pending ↔ p.done = false := by
  cases hd : p.done <;> simp [Promise.state, hd]
  split <;> simp

theorem Promise.state_done {V : Type} (p : Promise V) (hd : p.done = true) :
    p.state = (if p.err.isSome then PState.failed else PState.fulfilled) := by
  simp [Promise.state, hd]

/-- C10: a Promise produced by Execute starts pending, and every transition
either keeps its state or takes it from pending to fulfilled or from pending
to failed. Once the channel is closed the Promise (value, error and channel)
is the same after any further steps. The number of `close(done)` executed is
1 when the channel is closed and 0 otherwise, so the channel is never closed
twice; and when the work returns `(v, e)`, every complete execution has
closed it exactly once, ending fulfilled when `e` is nil and failed
otherwise. -/
theorem promise_state_machine {T V : Type} [Inhabited V] (ctx : Context) (t : T)
    (f : Func T V) (sched : List Tid) :
    (ExecSt.init ctx t f).cell.p.state = PState.pending ∧
    (∀ tid s2, ExecSt.step tid (ExecSt.run sched (ExecSt.init ctx t f)) = some s2 →
      s2.cell.p.state = (ExecSt.run sched (ExecSt.init ctx t f)).cell.p.state ∨
      ((ExecSt.run sched (ExecSt.init ctx t f)).cell.p.state = PState.pending ∧
        (s2.cell.p.state = PState.fulfilled ∨ s2.cell.p.state = PState.failed))) ∧
    ((ExecSt.run sched (ExecSt.init ctx t f)).cell.p.done = true → ∀ more,
      (ExecSt.run (sched ++ more) (ExecSt.init ctx t f)).cell.p =
        (ExecSt.run sched (ExecSt.init ctx t f)).cell.p) ∧
    ((ExecSt.run sched (ExecSt.init ctx t f)).cell.closes =
      if (ExecSt.run sched (ExecSt.init ctx t f)).cell.p.done then 1 else 0) ∧
    ((ExecSt.run sched (ExecSt.init ctx t f)).Stuck → ∀ v e, f ctx t = Outcome.returned (v, e) →
      (ExecSt.run sched (ExecSt.init ctx t f)).cell.closes = 1 ∧
      (ExecSt.run sched (ExecSt.init ctx t f)).cell.p = ⟨v, e, true⟩ ∧
      (ExecSt.run sched (ExecSt.init ctx t f)).cell.p.state =
        (if e.isSome then PState.failed else PState.fulfilled)) := by
  obtain ⟨hi, h1, h2, h3⟩ := ExecSt.reach ctx t f sched
  refine ⟨rfl, ?_, ?_, ?_, ?_⟩
  · intro tid s2 hs
    rcases ExecSt.step_write hi hs with hp | ⟨_, hopen, _⟩
    · exact Or.inl (by rw [hp])
    · have hpend := (Promise.state_pending_iff _).2 hopen
      cases hd2 : s2.cell.p.done with
      | false =>
        left
        rw [hpend]
        exact (Promise.state_pending_iff _).2 hd2
      | true =>
        right
        refine ⟨hpend, ?_⟩
        rw [Promise.state_done _ hd2]
        split
        · exact Or.inr rfl
        · exact Or.inl rfl
  · intro hd more
    rw [ExecSt.run_append]
    exact ExecSt.run_frozen more _ hi hd
  · cases hd : (ExecSt.run sched (ExecSt.init ctx t f)).cell.p.done with
    | false => simpa using hi.1.open_closes hd
    | true => simpa using (hi.1.done_result hd).2.2
  · intro hst v e hf
    have hnb : (ExecSt.run sched (ExecSt.init ctx t f)).cell.f
        (ExecSt.run sched (ExecSt.init ctx t f)).cell.ctx
        (ExecSt.run sched (ExecSt.init ctx t f)).cell.input ≠ Outcome.blocked := by
      rw [h1, h2, h3, hf]; simp
    obtain ⟨r, hr⟩ := ExecSt.stuck_finished hi hst hnb
    obtain ⟨hd, _⟩ := hi.finished_result hr
    obtain ⟨_, _, hcl⟩ := hi.1.done_result hd
    have hres : Outcome.returned (v, e) =
        Outcome.returned ((ExecSt.run sched (ExecSt.init ctx t f)).cell.p.val,
          (ExecSt.run sched (ExecSt.init ctx t f)).cell.p.err) := by
      rcases ExecSt.reach_settled ctx t f sched hd with h | ⟨h, _⟩
      · rw [← hf]; exact h
      · rw [hf] at h; exact absurd h (by simp)
    have hve := Outcome.returned.inj hres
    have hv : (ExecSt.run sched (ExecSt.init ctx t f)).cell.p.val = v :=
      (congrArg Prod.fst hve).symm
    have he : (ExecSt.run sched (ExecSt.init ctx t f)).cell.p.err = e :=
      (congrArg Prod.snd hve).symm
    have hp : (ExecSt.run sched (ExecSt.init ctx t f)).cell.p = ⟨v, e, true⟩ := by
      rw [← hv, ← he, ← hd]
    refine ⟨hcl, hp, ?_⟩
    rw [Promise.state_done _ hd, he]

/-- Witness of C10: once the Promise of the failing work is completed, steps
scheduled afterwards leave it as it is. -/
theorem promise_state_machine_witness :
    (ExecSt.run [Tid.main, Tid.main, Tid.task, Tid.task, Tid.task, Tid.task]
      (ExecSt.init ⟨false⟩ 0 boom)).cell.p.done = true ∧
    (ExecSt.run ([Tid.main, Tid.main, Tid.task, Tid.task, Tid.task, Tid.task] ++
        [Tid.task, Tid.main, Tid.main, Tid.main, Tid.task])
      (ExecSt.init ⟨false⟩ 0 boom)).cell.p =
    (ExecSt.run [Tid.main, Tid.main, Tid.task, Tid.task, Tid.task, Tid.task]
      (ExecSt.init ⟨false⟩ 0 boom)).cell.p :=
  ⟨rfl, (promise_state_machine ⟨false⟩ 0 boom
    [Tid.main, Tid.main, Tid.task, Tid.task, Tid.task, Tid.task]).2.2.1 rfl
      [Tid.task, Tid.main, Tid.main, Tid.main, Tid.task]⟩

/-! ## Lemmas on Wait -/

theorem promiseStep_length {T V : Type} {i : Nat} {ws ws2 : List (Cell T V)}
    (h : promiseStep i ws = some ws2) : ws2.length = ws.length := by
  unfold promiseStep at h
  split at h
  · split at h
    · cases h; simp
    · exact absurd h (by simp)
  · exact absurd h (by simp)

theorem Wait.callerStep_none_iff {T V : Type} (s : WaitSt T V) :
    Wait.callerStep s = none ↔ s.pc = WaitPc.returned := by
  obtain ⟨ws, pc, wg, done, workers, waiter⟩ := s
  cases pc with
  | loop i => simp only [Wait.callerStep]; split <;> simp
  | _ => simp [Wait.callerStep]

/-- A statement of the caller of Wait touches no Promise and advances the
caller by one. -/
theorem Wait.callerStep_spec {T V : Type} {s s2 : WaitSt T V} (h : Wait.callerStep s = some s2) :
    s2.ws = s.ws ∧ callerDone s.ws.length s2.pc = callerDone s.ws.length s.pc + 1 := by
  obtain ⟨ws, pc, wg, done, workers, waiter⟩ := s
  cases pc with
  | add => simp only [Wait.callerStep] at h; cases h; exact ⟨rfl, by simp [callerDone]⟩
  | mkDone => simp only [Wait.callerStep] at h; cases h; exact ⟨rfl, by simp [callerDone]⟩
  | loop i =>
    simp only [Wait.callerStep] at h
    split at h
    · rename_i hlt
      cases h
      refine ⟨rfl, ?_⟩
      simp only [callerDone]
      omega
    · rename_i hge
      cases h
      refine ⟨rfl, ?_⟩
      simp only [callerDone]
      omega
  | fallOff => simp only [Wait.callerStep] at h; cases h; exact ⟨rfl, by simp [callerDone]⟩
  | returned => simp [Wait.callerStep] at h

theorem Wait.workerStep_spec {T V : Type} {k : Nat} {s s2 : WaitSt T V}
    (h : Wait.workerStep k s = some s2) : s2.ws = s.ws ∧ s2.pc = s.pc := by
  unfold Wait.workerStep at h
  split at h
  · split at h
    · exact absurd h (by simp)
    · cases h; exact ⟨rfl, rfl⟩
  · exact absurd h (by simp)

theorem Wait.waiterStep_spec {T V : Type} {s s2 : WaitSt T V}
    (h : Wait.waiterStep s = some s2) : s2.ws = s.ws ∧ s2.pc = s.pc := by
  unfold Wait.waiterStep at h
  split at h
  · split at h
    · cases h; exact ⟨rfl, rfl⟩
    · exact absurd h (by simp)
  · cases h; exact ⟨rfl, rfl⟩
  · exact absurd h (by simp)
  · exact absurd h (by simp)

theorem callerDone_le (n : Nat) (pc : WaitPc) : callerDone n pc ≤ n + 4 := by
  cases pc <;> simp only [callerDone] <;> omega

theorem callerDone_eq_iff (n : Nat) (pc : WaitPc) :
    callerDone n pc = n + 4 ↔ pc = WaitPc.returned := by
  cases pc <;> simp only [callerDone] <;> (simp; try omega)

/-- The caller of Wait is never blocked: after being scheduled `k` times it has
run `k` of its `len(ws) + 4` statements, whatever the other threads did. -/
theorem WaitSt.run_callerDone {T V : Type} (sched : List WTid) (s : WaitSt T V) :
    callerDone s.ws.length (WaitSt.run sched s).pc =
      min (s.ws.length + 4) (callerDone s.ws.length s.pc + sched.count WTid.caller) := by
  induction sched generalizing s with
  | nil =>
    have := callerDone_le s.ws.length s.pc
    simp only [WaitSt.run, List.count_nil]
    omega
  | cons tid rest ih =>
    cases tid with
    | caller =>
      have hc : List.count WTid.caller (WTid.caller :: rest) =
          List.count WTid.caller rest + 1 := by simp [List.count_cons]
      rw [hc]
      simp only [WaitSt.run, WaitSt.step]
      split
      · rename_i s2 hs
        obtain ⟨hws, hpc⟩ := Wait.callerStep_spec hs
        have := ih s2
        rw [hws] at this
        rw [this, hpc]
        omega
      · rename_i hs
        have hret := (Wait.callerStep_none_iff s).1 hs
        rw [ih s, hret]
        simp only [callerDone]
        omega
    | worker k =>
      have hc : List.count WTid.caller (WTid.worker k :: rest) =
          List.count WTid.caller rest := by simp [List.count_cons]
      rw [hc]
      simp only [WaitSt.run, WaitSt.step]
      split
      · rename_i s2 hs
        obtain ⟨hws, hpc⟩ := Wait.workerStep_spec hs
        have := ih s2
        rw [hws, hpc] at this
        exact this
      · exact ih s
    | waiter =>
      have hc : List.count WTid.caller (WTid.waiter :: rest) =
          List.count WTid.caller rest := by simp [List.count_cons]
      rw [hc]
      simp only [WaitSt.run, WaitSt.step]
      split
      · rename_i s2 hs
        obtain ⟨hws, hpc⟩ := Wait.waiterStep_spec hs
        have := ih s2
        rw [hws, hpc] at this
        exact this
      · exact ih s
    | task i =>
      have hc : List.count WTid.caller (WTid.task i :: rest) =
          List.count WTid.caller rest := by simp [List.count_cons]
      rw [hc]
      simp only [WaitSt.run, WaitSt.step]
      split
      · rename_i s2 hs
        split at hs
        · rename_i ws2 hps
          cases hs
          have := ih { s with ws := ws2 }
          simp only [promiseStep_length hps] at this
          exact this
        · exact absurd hs (by simp)
      · exact ih s

/-- Wait and the goroutines it launches never write to a Promise: the Promises
after any schedule are what their own goroutines alone make of them. -/
theorem WaitSt.run_ws {T V : Type} (sched : List WTid) (s : WaitSt T V) :
    (WaitSt.run sched s).ws = runTasks (taskSteps sched) s.ws := by
  induction sched generalizing s with
  | nil => rfl
  | cons tid rest ih =>
    cases tid with
    | caller =>
      simp only [WaitSt.run, WaitSt.step, taskSteps]
      split
      · rename_i s2 hs
        rw [ih s2, (Wait.callerStep_spec hs).1]
      · exact ih s
    | worker k =>
      simp only [WaitSt.run, WaitSt.step, taskSteps]
      split
      · rename_i s2 hs
        rw [ih s2, (Wait.workerStep_spec hs).1]
      · exact ih s
    | waiter =>
      simp only [WaitSt.run, WaitSt.step, taskSteps]
      split
      · rename_i s2 hs
        rw [ih s2, (Wait.waiterStep_spec hs).1]
      · exact ih s
    | task i =>
      simp only [WaitSt.run, WaitSt.step, taskSteps, runTasks]
      cases hps : promiseStep i s.ws with
      | none => exact ih s
      | some ws2 => exact ih { s with ws := ws2 }

theorem WaitSt.run_cons {T V : Type} (tid : WTid) (rest : List WTid) (s : WaitSt T V) :
    WaitSt.run (tid :: rest) s = WaitSt.run rest ((WaitSt.step tid s).getD s) := by
  simp only [WaitSt.run]
  cases WaitSt.step tid s <;> rfl

/-- What Wait and its goroutines do depends on the Promises only through
their number: a transition maps two states that agree on everything but the
contents of the Promises to two such states. -/
theorem WaitSt.step_control {T V : Type} (tid : WTid) (s s2 : WaitSt T V)
    (hc : s.control = s2.control) (hl : s.ws.length = s2.ws.length) :
    ((WaitSt.step tid s).getD s).control = ((WaitSt.step tid s2).getD s2).control ∧
      ((WaitSt.step tid s).getD s).ws.length = ((WaitSt.step tid s2).getD s2).ws.length := by
  obtain ⟨ws, pc, wg, done, workers, waiter⟩ := s
  obtain ⟨ws2, pc2, wg2, done2, workers2, waiter2⟩ := s2
  simp only [WaitSt.control, Prod.mk.injEq] at hc
  obtain ⟨h1, h2, h3, h4, h5⟩ := hc
  subst h1 h2 h3 h4 h5
  simp only at hl
  cases tid with
  | caller =>
    cases pc with
    | loop i =>
      simp only [WaitSt.step, Wait.callerStep, hl]
      split <;> simp [WaitSt.control, hl]
    | _ => simp [WaitSt.step, Wait.callerStep, WaitSt.control, hl]
  | worker k =>
    simp only [WaitSt.step, Wait.workerStep]
    cases hk : workers[k]? with
    | none => simp [WaitSt.control, hl]
    | some g =>
      cases hg : g.exited <;> simp [WaitSt.control, hl, hg]
  | waiter =>
    cases waiter with
    | none => simp [WaitSt.step, Wait.waiterStep, WaitSt.control, hl]
    | some w =>
      cases w with
      | waiting =>
        simp only [WaitSt.step, Wait.waiterStep]
        split <;> simp [WaitSt.control, hl]
      | deferred => simp [WaitSt.step, Wait.waiterStep, WaitSt.control, hl]
      | exited => simp [WaitSt.step, Wait.waiterStep, WaitSt.control, hl]
  | task i =>
    simp only [WaitSt.step]
    cases ha : promiseStep i ws with
    | none =>
      cases hb : promiseStep i ws2 with
      | none => simp [WaitSt.control, hl]
      | some b => simp [WaitSt.control, promiseStep_length hb, hl]
    | some a =>
      cases hb : promiseStep i ws2 with
      | none => simp [WaitSt.control, promiseStep_length ha, hl]
      | some b => simp [WaitSt.control, promiseStep_length ha, promiseStep_length hb, hl]

theorem WaitSt.run_control {T V : Type} (sched : List WTid) (s s2 : WaitSt T V)
    (hc : s.control = s2.control) (hl : s.ws.length = s2.ws.length) :
    (WaitSt.run sched s).control = (WaitSt.run sched s2).control := by
  induction sched generalizing s s2 with
  | nil => exact hc
  | cons tid rest ih =>
    rw [WaitSt.run_cons, WaitSt.run_cons]
    obtain ⟨h1, h2⟩ := WaitSt.step_control tid s s2 hc hl
    exact ih _ _ h1 h2

theorem taskSteps_replicate_caller (k : Nat) :
    taskSteps (List.replicate k WTid.caller) = [] := by
  induction k with
  | zero => rfl
  | succ n ih => simp [List.replicate_succ, taskSteps, ih]

/-- The caller of Wait scheduled alone `len(ws) + 4` times has returned and
the Promises are as they were. -/
theorem WaitSt.run_caller_alone {T V : Type} (ws : List (Cell T V)) :
    (WaitSt.run (List.replicate (ws.length + 4) WTid.caller) (WaitSt.init ws)).pc =
      WaitPc.returned ∧
    (WaitSt.run (List.replicate (ws.length + 4) WTid.caller) (WaitSt.init ws)).ws = ws := by
  constructor
  · have h := WaitSt.run_callerDone (List.replicate (ws.length + 4) WTid.caller) (WaitSt.init ws)
    rw [List.count_replicate_self] at h
    have hi : (WaitSt.init ws).ws.length = ws.length := rfl
    have hp : callerDone ws.length (WaitSt.init ws).pc = 0 := rfl
    rw [hi, hp] at h
    apply (callerDone_eq_iff ws.length _).1
    rw [h]
    omega
  · rw [WaitSt.run_ws, taskSteps_replicate_caller]
    rfl

theorem launchAll_cellsOf {T V : Type} [Inhabited V] (jobs : List (Job T V)) :
    CellsOf jobs (launchAll jobs) := by
  intro i c hc
  simp only [launchAll, List.getElem?_map] at hc
  cases hj : jobs[i]? with
  | none => simp [hj] at hc
  | some j =>
    simp only [hj, Option.map_some', Option.some.injEq] at hc
    subst hc
    exact ⟨by simp [Cell.Inv, Cell.launched, Promise.fresh], j, rfl, rfl, rfl, rfl⟩

theorem promiseStep_cellsOf {T V : Type} [Inhabited V] {jobs : List (Job T V)} {k : Nat}
    {ws ws2 : List (Cell T V)} (hi : CellsOf jobs ws) (h : promiseStep k ws = some ws2) :
    CellsOf jobs ws2 := by
  unfold promiseStep at h
  split at h
  · rename_i c0 hk
    split at h
    · rename_i c2 hts
      cases h
      intro i c hc
      rw [List.getElem?_set] at hc
      split at hc
      · rename_i hki
        subst hki
        split at hc
        · cases hc
          obtain ⟨hinv, j, hj, e1, e2, e3⟩ := hi k c0 hk
          obtain ⟨g1, g2, g3⟩ := Execute.taskStep_env hts
          exact ⟨Execute.taskStep_inv hinv hts, j, hj, g1.trans e1, g2.trans e2, g3.trans e3⟩
        · exact absurd hc (by simp)
      · exact hi i c hc
    · exact absurd h (by simp)
  · exact absurd h (by simp)

theorem runTasks_cellsOf {T V : Type} [Inhabited V] {jobs : List (Job T V)} (steps : List Nat)
    (ws : List (Cell T V)) (hi : CellsOf jobs ws) : CellsOf jobs (runTasks steps ws) := by
  induction steps generalizing ws with
  | nil => exact hi
  | cons k rest ih =>
    simp only [runTasks]
    split
    · rename_i ws2 hs
      exact ih ws2 (promiseStep_cellsOf hi hs)
    · exact ih ws hi

/-! ## Wait: the claims -/

/-- C2 says that Wait returns the error of a failing Promise; the code does
otherwise. In the scenario of one Promise failing with "boom" and one
succeeding with 5, Wait has returned after its caller ran six statements alone, when both Promises are still pending and no error exists
yet; and under every schedule the caller of Wait, the counter, the local
channel and the goroutines of Wait are exactly what they are when both
Promises succeed, so nothing Wait does or hands back tells the failure from
a success. After all goroutines ran, "boom" is on the Promise only. -/
theorem wait_ignores_failure :
    ((WaitSt.run (List.replicate 6 WTid.caller) (WaitSt.init boomScenario)).pc = WaitPc.returned ∧
      (WaitSt.run (List.replicate 6 WTid.caller) (WaitSt.init boomScenario)).ws.map
        (fun c => c.p.state) = [PState.pending, PState.pending]) ∧
    (∀ sched, (WaitSt.run sched (WaitSt.init boomScenario)).control =
      (WaitSt.run sched (WaitSt.init fiveScenario)).control) ∧
    ((WaitSt.run [WTid.caller, WTid.caller, WTid.caller, WTid.caller, WTid.caller, WTid.caller,
        WTid.task 0, WTid.task 0, WTid.task 0, WTid.task 0,
        WTid.task 1, WTid.task 1, WTid.task 1, WTid.task 1,
        WTid.worker 0, WTid.worker 1, WTid.waiter, WTid.waiter]
        (WaitSt.init boomScenario)).ws.map (fun c => c.p) =
      [⟨0, some "boom", true⟩, ⟨5, none, true⟩]) := by
  refine ⟨⟨by decide, by decide⟩, ?_, by decide⟩
  intro sched
  exact WaitSt.run_control sched _ _ rfl rfl

/-- C3 says that Wait returns only after every task has completed; the code
does otherwise. For every list of Promises, Wait has returned once its caller
has run its `len(ws) + 4` statements alone, with
every Promise exactly as it was when Wait was called; with one Promise whose
work returns `(5, nil)` Wait has returned while that Promise is pending and
its goroutine has not started, and with work that never ends Wait returns
all the same. -/
theorem wait_returns_while_pending {T V : Type} (ws : List (Cell T V)) :
    ((WaitSt.run (List.replicate (ws.length + 4) WTid.caller) (WaitSt.init ws)).pc =
        WaitPc.returned ∧
      (WaitSt.run (List.replicate (ws.length + 4) WTid.caller) (WaitSt.init ws)).ws = ws) ∧
    ((WaitSt.run (List.replicate 5 WTid.caller)
        (WaitSt.init [Cell.launched ⟨false⟩ 0 five])).pc = WaitPc.returned ∧
      (WaitSt.run (List.replicate 5 WTid.caller)
        (WaitSt.init [Cell.launched ⟨false⟩ 0 five])).ws.map (fun c => (c.p.done, c.calls)) =
        [(false, [])]) ∧
    (∀ sched, (WaitSt.run sched (WaitSt.init [Cell.launched ⟨false⟩ 0 forever])).pc =
        WaitPc.returned ↔ 5 ≤ sched.count WTid.caller) := by
  refine ⟨WaitSt.run_caller_alone ws, ⟨by decide, by decide⟩, ?_⟩
  intro sched
  have h := WaitSt.run_callerDone sched (WaitSt.init [Cell.launched ⟨false⟩ 0 forever])
  have hi : (WaitSt.init [Cell.launched ⟨false⟩ 0 forever]).ws.length = 1 := rfl
  have hp : callerDone 1 (WaitSt.init [Cell.launched ⟨false⟩ 0 forever]).pc = 0 := rfl
  rw [hi, hp] at h
  rw [← callerDone_eq_iff 1, h]
  omega

/-- C5: Wait on the empty sequence returns after four statements of its
caller and of nobody else: under every schedule it has returned exactly when
its caller has been scheduled four times; no statement of the caller can
block (each is enabled until Wait has returned); and the caller scheduled
alone four times has returned, having launched no goroutine to watch a
Promise. Wait has no result, so it reports no error. -/
theorem wait_empty_returns {T V : Type} :
    (∀ sched, (WaitSt.run sched (WaitSt.init ([] : List (Cell T V)))).pc = WaitPc.returned ↔
      4 ≤ sched.count WTid.caller) ∧
    (∀ s : WaitSt T V, Wait.callerStep s = none ↔ s.pc = WaitPc.returned) ∧
    ((WaitSt.run (List.replicate 4 WTid.caller) (WaitSt.init ([] : List (Cell T V)))).pc =
        WaitPc.returned ∧
      (WaitSt.run (List.replicate 4 WTid.caller) (WaitSt.init ([] : List (Cell T V)))).workers =
        []) := by
  refine ⟨?_, Wait.callerStep_none_iff, ⟨rfl, rfl⟩⟩
  intro sched
  have h := WaitSt.run_callerDone sched (WaitSt.init ([] : List (Cell T V)))
  have hi : (WaitSt.init ([] : List (Cell T V))).ws.length = 0 := rfl
  have hp : callerDone 0 (WaitSt.init ([] : List (Cell T V))).pc = 0 := rfl
  rw [hi, hp] at h
  rw [← callerDone_eq_iff 0, h]
  omega

/-- C8 as stated fails in its last clause: with a Promise whose work ends its
goroutine without returning, after Wait and every goroutine ran the Promise
is closed and its Get returns `(0, nil)`, which is not a result of its work:
the call returned nothing. -/
theorem wait_unwound_get_returns_zero :
    (WaitSt.run [WTid.caller, WTid.caller, WTid.task 0, WTid.caller, WTid.caller,
        WTid.task 0, WTid.caller, WTid.worker 0, WTid.waiter, WTid.waiter]
        (WaitSt.init (launchAll [⟨⟨false⟩, 0, crash⟩]))).ws.map (fun c => c.p.Get) =
      [some ((0, none), ⟨0, none, true⟩)] ∧
    (WaitSt.run [WTid.caller, WTid.caller, WTid.task 0, WTid.caller, WTid.caller,
        WTid.task 0, WTid.caller, WTid.worker 0, WTid.waiter, WTid.waiter]
        (WaitSt.init (launchAll [⟨⟨false⟩, 0, crash⟩]))).pc = WaitPc.returned ∧
    crash ⟨false⟩ 0 ≠ Outcome.returned (0, none) :=
  ⟨by decide, by decide, by decide⟩

/-- C8, amended: Wait and the goroutines it launches leave every Promise alone:
under every schedule the Promises (value, error, channel, and the state of
their own goroutines) are exactly what they are when only their own goroutines
take the same steps and Wait is never called, so Get on each returns what it
returns without the call. For Promises produced by Execute calls `jobs`, a
Promise whose channel is closed holds the result of its own work when the
work returned, and the zero value with a nil error when the work ended its
goroutine without returning; its Get returns that pair and leaves the Promise
unchanged. -/
theorem wait_leaves_promises_alone {T V : Type} [Inhabited V] :
    (∀ (ws : List (Cell T V)) (sched : List WTid),
      (WaitSt.run sched (WaitSt.init ws)).ws = runTasks (taskSteps sched) ws) ∧
    (∀ (ws : List (Cell T V)) (sched : List WTid),
      (WaitSt.run sched (WaitSt.init ws)).ws.map (fun c => c.p.Get) =
        (runTasks (taskSteps sched) ws).map (fun c => c.p.Get)) ∧
    (∀ (jobs : List (Job T V)) (sched : List WTid) (i : Nat) (j : Job T V) (c : Cell T V),
      jobs[i]? = some j →
      (WaitSt.run sched (WaitSt.init (launchAll jobs))).ws[i]? = some c → c.p.done = true →
      (j.f j.ctx j.input = Outcome.returned (c.p.val, c.p.err) ∨
        (j.f j.ctx j.input = Outcome.unwound ∧ c.p.val = default ∧ c.p.err = none)) ∧
        c.p.Get = some ((c.p.val, c.p.err), c.p)) := by
  refine ⟨fun ws sched => WaitSt.run_ws sched (WaitSt.init ws), ?_, ?_⟩
  · intro ws sched
    rw [WaitSt.run_ws]
    rfl
  · intro jobs sched i j c hj hc hd
    rw [WaitSt.run_ws] at hc
    have hcells := runTasks_cellsOf (taskSteps sched) _ (launchAll_cellsOf jobs)
    obtain ⟨hinv, j2, hj2, e1, e2, e3⟩ := hcells i c hc
    rw [hj] at hj2
    cases hj2
    constructor
    · have := (hinv.done_result hd).1
      unfold Cell.Settled at this
      rw [e1, e2, e3] at this
      exact this
    · simp [Promise.Get, Promise.recvDone, hd]

/-- Witness of C8: in the "boom" scenario, with Wait and its goroutines
running in between, the failed Promise ends completed and its Get returns
`(0, "boom")`. -/
theorem wait_leaves_promises_alone_witness :
    (WaitSt.run [WTid.caller, WTid.caller, WTid.task 0, WTid.caller, WTid.task 0,
        WTid.caller, WTid.task 0, WTid.worker 0, WTid.caller, WTid.task 0, WTid.caller]
        (WaitSt.init (launchAll [⟨⟨false⟩, 0, boom⟩, ⟨⟨false⟩, 0, five⟩]))).ws[0]? =
      some boomCompleted ∧
    boomCompleted.p.done = true ∧
    ((boom ⟨false⟩ 0 = Outcome.returned (boomCompleted.p.val, boomCompleted.p.err) ∨
        (boom ⟨false⟩ 0 = Outcome.unwound ∧ boomCompleted.p.val = default ∧
          boomCompleted.p.err = none)) ∧
      boomCompleted.p.Get = some ((0, some "boom"), ⟨0, some "boom", true⟩)) :=
  ⟨rfl, rfl, (wait_leaves_promises_alone.2.2
    [⟨⟨false⟩, 0, boom⟩, ⟨⟨false⟩, 0, five⟩]
    [WTid.caller, WTid.caller, WTid.task 0, WTid.caller, WTid.task 0,
      WTid.caller, WTid.task 0, WTid.worker 0, WTid.caller, WTid.task 0, WTid.caller]
    0 ⟨⟨false⟩, 0, boom⟩ boomCompleted rfl rfl rfl)⟩

end GoSync
